import Mathlib

/-!
Shallow embedding of the multi-provider acquisition engine of the
Spotify_Downloader repository: the candidate matcher
(`jamendo_client._find_best_match`, `internetarchive_client._find_best_match`),
the completeness validator (`downloader._is_file_complete`), the filename
sanitizer (`downloader._sanitize_filename`), the deduplication ledger
(`download_tracker.DownloadTracker`), the fallback orchestrator
(`multi_source_downloader.MultiSourceDownloader.download`) and the Jamendo
fetch decision logic (`jamendo_client.download_track`).

Machine floats of the source are modelled by exact rationals; the filesystem
is modelled by the observed size of the file of interest (`none` = absent);
network effects are modelled by explicit outcome-valued parameters.
-/

namespace SpotifyDL

/-- Lowercasing of one character, as Python `str.lower` acts on ASCII
(the source's track names are compared after `.lower()`). -/
def lowerChar (c : Char) : Char :=
  if 65 ≤ c.toNat ∧ c.toNat ≤ 90 then Char.ofNat (c.toNat + 32) else c

/-- Python `s.lower()` on a string, modelled characterwise for ASCII. -/
def pyLower (s : String) : String := ⟨s.data.map lowerChar⟩

/-- Python substring test `needle in hay` on lists of characters
(the empty needle is contained in everything). -/
def subIn (needle : List Char) : List Char → Bool
  | [] => needle.isEmpty
  | c :: rest => needle.isPrefixOf (c :: rest) || subIn needle rest

/-- Python substring test on strings, `needle in hay`. -/
def strIn (needle hay : String) : Bool := subIn needle.data hay.data

/-- Track metadata as passed around the source (`track` dictionaries built
from Spotify data): `artist`, `name`, `album` and optional `duration_ms`. -/
structure SpotifyTrack where
  artist : String
  name : String
  album : String
  duration_ms : Option ℚ
deriving DecidableEq

/-- One Jamendo search result as consumed by `_find_best_match` and
`download_track`: `id`, `artist_name`, `name` (with `get` defaults `''`)
and `duration` (default 0, in seconds). -/
structure JamendoTrack where
  id : Option String
  artist_name : String
  name : String
  duration : ℚ
deriving DecidableEq

/-- Scoring of a single Jamendo result against the request,
from `jamendo_client._find_best_match` lines 100-125. -/
def jamendoScore (sp : SpotifyTrack) (r : JamendoTrack) : ℕ :=
  let artist := pyLower sp.artist
  let title := pyLower sp.name
  let ra := pyLower r.artist_name
  let rt := pyLower r.name
  let artistScore : ℕ :=
    if artist = ra then 50
    else if strIn artist ra || strIn ra artist then 30
    else 0
  let titleScore : ℕ :=
    if title = rt then 50
    else if strIn title rt || strIn rt title then 30
    else 0
  let durScore : ℕ :=
    match sp.duration_ms with
    | some dms => if |dms / 1000 - r.duration| ≤ 10 then 20 else 0
    | none => 0
  artistScore + titleScore + durScore

/-- One Internet Archive search result as consumed by its
`_find_best_match`: `title`, `creator` (with `get` defaults `''`) and the
`format` list. -/
structure IAItem where
  identifier : Option String
  title : String
  creator : String
  formats : List String
deriving DecidableEq

/-- Scoring of a single Internet Archive result against the request,
from `internetarchive_client._find_best_match` lines 102-119. -/
def iaScore (sp : SpotifyTrack) (item : IAItem) : ℕ :=
  let artist := pyLower sp.artist
  let title := pyLower sp.name
  let it := pyLower item.title
  let ic := pyLower item.creator
  let artistScore : ℕ := if strIn artist ic || strIn artist it then 50 else 0
  let titleScore : ℕ := if strIn title it then 50 else 0
  let fmtScore : ℕ := if item.formats.contains "Flac" then 20 else 0
  artistScore + titleScore + fmtScore

/-- The selection loop shared by both `_find_best_match` implementations:
running `(best_score, best_match)` starts at `(0, None)` and is replaced
exactly when a candidate's score is strictly greater than the running best. -/
def selectGo {α : Type} (score : α → ℕ) : List α → ℕ × Option α → ℕ × Option α
  | [], acc => acc
  | r :: rest, acc =>
      selectGo score rest (if score r > acc.1 then (score r, some r) else acc)

/-- Final `(best_score, best_match)` pair of the selection loop. -/
def selectBest {α : Type} (score : α → ℕ) (cs : List α) : ℕ × Option α :=
  selectGo score cs (0, none)

/-- The best score attained over a candidate list (0 when empty). -/
def bestScore {α : Type} (score : α → ℕ) (cs : List α) : ℕ :=
  (selectBest score cs).1

/-- Tail of `_find_best_match`: return `best_match` iff `best_score >= 60`. -/
def findBestMatch {α : Type} (score : α → ℕ) (cs : List α) : Option α :=
  if 60 ≤ (selectBest score cs).1 then (selectBest score cs).2 else none

/-- Embedding of `JamendoClient._find_best_match`. -/
def jamendoFindBestMatch (sp : SpotifyTrack) (rs : List JamendoTrack) :
    Option JamendoTrack :=
  findBestMatch (jamendoScore sp) rs

/-- Embedding of `InternetArchiveClient._find_best_match`. -/
def iaFindBestMatch (sp : SpotifyTrack) (items : List IAItem) : Option IAItem :=
  findBestMatch (iaScore sp) items

/-- The invalid characters replaced by `Downloader._sanitize_filename`,
in the source's order: the string `<>:"/\|?*`. -/
def invalidChars : List Char := ['<', '>', ':', '"', '/', '\\', '|', '?', '*']

/-- One pass `filename.replace(char, '_')` of `_sanitize_filename`. -/
def replaceChar (s : List Char) (c : Char) : List Char :=
  s.map fun x => if x = c then '_' else x

/-- The characters removed at both ends by `filename.strip('. ')`. -/
def stripChars : List Char := ['.', ' ']

/-- Python `filename.strip('. ')`: drop leading and trailing dots and spaces. -/
def pyStrip (s : List Char) : List Char :=
  ((s.dropWhile (stripChars.contains ·)).reverse.dropWhile
    (stripChars.contains ·)).reverse

/-- Embedding of `Downloader._sanitize_filename` (downloader.py 164-183):
replace each invalid character by an underscore, then strip dots/spaces. -/
def sanitize_filename (s : String) : String :=
  ⟨pyStrip (invalidChars.foldl replaceChar s.data)⟩

/-- The metadata-derived path segments of `Downloader._get_output_path`
(downloader.py 126-128): artist, album and title are passed through
`_sanitize_filename` before the path and filename are built from them. -/
def downloaderSegments (tr : SpotifyTrack) : List String :=
  [sanitize_filename tr.artist, sanitize_filename tr.album,
    sanitize_filename tr.name]

/-- The metadata-derived path segments of `JamendoClient.download_track`
(jamendo_client.py 163-169): the artist directory and the
`"{artist} - {title}.flac"` filename, built from the raw metadata. -/
def jamendoSegments (tr : SpotifyTrack) : List String :=
  [tr.artist, tr.artist ++ " - " ++ tr.name ++ ".flac"]

/-- The metadata-derived path segments of
`InternetArchiveClient.download_track` (internetarchive_client.py 171-177):
identical raw construction to the Jamendo client's. -/
def iaSegments (tr : SpotifyTrack) : List String :=
  [tr.artist, tr.artist ++ " - " ++ tr.name ++ ".flac"]

/-- What `mutagen.File` yielded on the downloaded file, as
`Downloader._is_file_complete` inspects it: the open raised, the file was
unidentifiable (`None`), or it opened with an optional embedded length
(seconds). -/
inductive ProbeResult where
  | raised
  | unidentified
  | opened (length : Option ℚ)
deriving DecidableEq

/-- The size fallback of `_is_file_complete` (downloader.py 221-231): at
least 70 percent of 500000 bytes per expected minute. -/
def sizeHeuristic (fileSize : ℚ) (durationMs : ℚ) : Bool :=
  decide (durationMs / 1000 / 60 * 500000 * 0.7 ≤ fileSize)

/-- Embedding of `Downloader._is_file_complete` (downloader.py 185-237):
duration-ratio check when an embedded positive length is readable, size
heuristic otherwise, absolute 500000-byte floor when opening raised. -/
def is_file_complete (probe : ProbeResult) (fileSize : ℚ) (durationMs : ℚ) :
    Bool :=
  match probe with
  | .raised => decide (fileSize > 500000)
  | .unidentified => false
  | .opened len =>
    match len with
    | some l =>
      if 0 < l then
        decide (0.85 ≤ l / (durationMs / 1000) ∧ l / (durationMs / 1000) ≤ 1.15)
      else sizeHeuristic fileSize durationMs
    | none => sizeHeuristic fileSize durationMs

/-- One persisted record of `DownloadTracker.completed_tracks`. -/
structure TrackEntry where
  artist : String
  name : String
  album : String
  file : String
  size : ℕ
  format : String
deriving DecidableEq

/-- The identity key of `DownloadTracker._get_track_id`: the source digests
`f"{artist}|{name}|{album}"` with MD5; the digest is deterministic in the
triple, modelled here by the digested string itself. -/
def trackId (tr : SpotifyTrack) : String :=
  tr.artist ++ "|" ++ tr.name ++ "|" ++ tr.album

/-- The in-memory ledger `completed_tracks`, a dictionary keyed by identity. -/
abbrev TrackerMap := String → Option TrackEntry

/-- Embedding of `DownloadTracker.is_downloaded` (download_tracker.py 54-84).
The filesystem is modelled by the observed size of the expected file
(`none` when the file does not exist): false when the file is absent or the
identity untracked, else true iff the recorded size equals the observed one. -/
def is_downloaded (m : TrackerMap) (tr : SpotifyTrack)
    (observedSize : Option ℕ) : Bool :=
  match observedSize with
  | none => false
  | some sz =>
    match m (trackId tr) with
    | some e => e.size == sz
    | none => false

/-- Embedding of `DownloadTracker.mark_downloaded` (download_tracker.py
86-106): store the entry for the track's identity (and persist). -/
def mark_downloaded (m : TrackerMap) (tr : SpotifyTrack) (filePath : String)
    (fileSize : ℕ) (fileFormat : String) : TrackerMap :=
  fun k =>
    if k = trackId tr then
      some { artist := tr.artist, name := tr.name, album := tr.album,
             file := filePath, size := fileSize, format := fileFormat }
    else m k

/-- Embedding of `DownloadTracker.remove_track` (download_tracker.py
108-118): delete the identity's entry and persist only when present. The
boolean records whether `_save_tracker` was called. -/
def remove_track (m : TrackerMap) (tr : SpotifyTrack) : TrackerMap × Bool :=
  match m (trackId tr) with
  | some _ => (fun k => if k = trackId tr then none else m k, true)
  | none => (m, false)

/-- Outcome of one provider attempt inside the orchestrator's loop: the
dispatched call raised, or it returned (a path on success, `None` on
failure). -/
inductive AttemptOutcome where
  | raised
  | finished (result : Option String)
deriving DecidableEq

/-- The provider names the `download` dispatch recognizes
(multi_source_downloader.py 106-115); any other name falls to the
`else: continue` branch without an attempt. -/
def knownSourceNames : List String :=
  ["internetarchive", "jamendo", "deezer", "youtube"]

/-- Embedding of `MultiSourceDownloader.download` (multi_source_downloader.py
98-129): walk `source_priority`, skip names missing from `self.sources`
(`availableSources`) and names the dispatch does not recognize, absorb a
raised attempt and advance, stop at the first attempt returning a path.
Besides the returned path, the list of providers actually attempted is
recorded. -/
def download_loop (priority : List String) (availableSources : String → Bool)
    (attempt : String → AttemptOutcome) : Option String × List String :=
  match priority with
  | [] => (none, [])
  | p :: rest =>
    if availableSources p then
      if knownSourceNames.contains p then
        match attempt p with
        | .raised =>
          let r := download_loop rest availableSources attempt
          (r.1, p :: r.2)
        | .finished none =>
          let r := download_loop rest availableSources attempt
          (r.1, p :: r.2)
        | .finished (some path) => (some path, [p])
      else download_loop rest availableSources attempt
    else download_loop rest availableSources attempt

/-- Modelled from the spec: the top-level acquisition wrapper ("Before
attempting any provider, check `Ledger.is_current`; if the request already
has a current, correctly-sized recorded file, skip all providers and return
that file path immediately") lives in the orchestrating script, which is not
under src/; only `is_downloaded` and the provider loop it combines are in
src/ and are embedded from there. -/
def acquire (m : TrackerMap) (tr : SpotifyTrack) (observedSize : Option ℕ)
    (priority : List String) (availableSources : String → Bool)
    (attempt : String → AttemptOutcome) : Option String × List String :=
  if is_downloaded m tr observedSize then
    ((m (trackId tr)).map (fun e => e.file), [])
  else
    download_loop priority availableSources attempt

/-- Embedding of the decision logic of `JamendoClient.download_track`
(jamendo_client.py 149-203) after the output path is fixed: fail without a
track id; fail when the response is not audio (nothing written); once the
body is written, delete the file and fail when it is smaller than 100000
bytes, else succeed with the output path. The boolean records whether the
written file was deleted (`output_file.unlink()`). -/
def jamendo_download_track (jamendoId : Option String)
    (contentTypeAudio : Bool) (writtenSize : ℕ) (outputFile : String) :
    Option String × Bool :=
  match jamendoId with
  | none => (none, false)
  | some _ =>
    if contentTypeAudio then
      if writtenSize < 100000 then (none, true)
      else (some outputFile, false)
    else (none, false)

/-! ### Lemmas on the selection loop -/

theorem selectGo_fst_le {α : Type} (score : α → ℕ) :
    ∀ (cs : List α) (b : ℕ) (m : Option α), b ≤ (selectGo score cs (b, m)).1 := by
  intro cs
  induction cs with
  | nil => intro b m; exact Nat.le_refl b
  | cons r rest ih =>
    intro b m
    by_cases h : score r > b
    · have h2 := ih (score r) (some r)
      simp only [selectGo, if_pos h] at h2 ⊢
      exact Nat.le_trans (Nat.le_of_lt h) h2
    · simpa only [selectGo, if_neg h] using ih b m

theorem selectGo_snd_of_fst_eq {α : Type} (score : α → ℕ) :
    ∀ (cs : List α) (b : ℕ) (m : Option α),
      (selectGo score cs (b, m)).1 = b → (selectGo score cs (b, m)).2 = m := by
  intro cs
  induction cs with
  | nil => intro b m _; rfl
  | cons r rest ih =>
    intro b m hfst
    by_cases h : score r > b
    · exfalso
      have h2 := selectGo_fst_le score rest (score r) (some r)
      simp only [selectGo, if_pos h] at hfst
      omega
    · simp only [selectGo, if_neg h] at hfst ⊢
      exact ih b m hfst

theorem selectGo_mem_le {α : Type} (score : α → ℕ) :
    ∀ (cs : List α) (b : ℕ) (m : Option α) (r : α), r ∈ cs →
      score r ≤ (selectGo score cs (b, m)).1 := by
  intro cs
  induction cs with
  | nil => intro b m r hr; exact absurd hr (List.not_mem_nil r)
  | cons x rest ih =>
    intro b m r hr
    rcases List.mem_cons.mp hr with hx | hrest
    · subst hx
      by_cases h : score r > b
      · simp only [selectGo, if_pos h]
        exact selectGo_fst_le score rest (score r) (some r)
      · simp only [selectGo, if_neg h]
        exact Nat.le_trans (Nat.le_of_not_lt h) (selectGo_fst_le score rest b m)
    · by_cases h : score x > b
      · simp only [selectGo, if_pos h]
        exact ih (score x) (some x) r hrest
      · simp only [selectGo, if_neg h]
        exact ih b m r hrest

theorem selectGo_snd_find {α : Type} (score : α → ℕ) :
    ∀ (cs : List α) (b : ℕ) (m : Option α),
      b < (selectGo score cs (b, m)).1 →
      (selectGo score cs (b, m)).2 =
        cs.find? (fun r => decide ((selectGo score cs (b, m)).1 ≤ score r)) := by
  intro cs
  induction cs with
  | nil => intro b m h; exact absurd h (Nat.lt_irrefl b)
  | cons x rest ih =>
    intro b m hb
    by_cases h : score x > b
    · simp only [selectGo, if_pos h] at hb ⊢
      have hle := selectGo_fst_le score rest (score x) (some x)
      rcases Nat.eq_or_lt_of_le hle with heq | hlt
      · rw [List.find?_cons_of_pos _ (by simp [← heq])]
        exact selectGo_snd_of_fst_eq score rest (score x) (some x) heq.symm
      · rw [List.find?_cons_of_neg _ (by simp [Nat.not_le.mpr hlt])]
        exact ih (score x) (some x) hlt
    · simp only [selectGo, if_neg h] at hb ⊢
      have hx : score x ≤ b := Nat.le_of_not_lt h
      rw [List.find?_cons_of_neg _ (by simp; omega)]
      exact ih b m hb

theorem find?_ge_eq_find?_eq {α : Type} (score : α → ℕ) (M : ℕ) :
    ∀ (cs : List α), (∀ r ∈ cs, score r ≤ M) →
      cs.find? (fun r => decide (M ≤ score r)) =
        cs.find? (fun r => decide (score r = M)) := by
  intro cs
  induction cs with
  | nil => intro _; rfl
  | cons x rest ih =>
    intro h
    have hx := h x (List.mem_cons_self x rest)
    by_cases hEq : score x = M
    · rw [List.find?_cons_of_pos _ (by simp [hEq]),
        List.find?_cons_of_pos _ (by simp [hEq])]
    · have hlt : ¬ M ≤ score x := fun hle => hEq (Nat.le_antisymm hx hle)
      rw [List.find?_cons_of_neg _ (by simpa using hlt),
        List.find?_cons_of_neg _ (by simpa using hEq)]
      exact ih fun r hr => h r (List.mem_cons_of_mem x hr)

/-- C3: for every request and non-empty candidate list, the matcher scores
every candidate and keeps the earliest-seen candidate among those attaining
the maximum score (the running best is replaced only on a strictly greater
score); it returns that candidate when the maximum score is at least 60 and
`none` when the maximum score is below 60. Stated for the shared selection
loop of both `_find_best_match` implementations, so it covers
`jamendoFindBestMatch` and `iaFindBestMatch` alike; the exactly-60 boundary
(artist partial substring 30 plus title partial substring 30, no duration
bonus) is exercised by the witness. -/
theorem matcher_selects_first_max {α : Type} (score : α → ℕ) (cs : List α)
    (_hne : cs ≠ []) :
    (60 ≤ bestScore score cs →
      findBestMatch score cs =
        cs.find? (fun r => decide (score r = bestScore score cs))) ∧
    (bestScore score cs < 60 → findBestMatch score cs = none) := by
  constructor
  · intro h60
    have h0 : 0 < (selectGo score cs (0, none)).1 := by
      have : (60 : ℕ) ≤ (selectGo score cs (0, none)).1 := h60
      omega
    have hfind := selectGo_snd_find score cs 0 none h0
    have hle : ∀ r ∈ cs, score r ≤ bestScore score cs := fun r hr =>
      selectGo_mem_le score cs 0 none r hr
    have hconv := find?_ge_eq_find?_eq score (bestScore score cs) cs hle
    simp only [findBestMatch, bestScore, selectBest] at *
    rw [if_pos h60, hfind, hconv]
  · intro hlt
    simp only [findBestMatch, bestScore, selectBest] at *
    rw [if_neg (by omega)]

/-- Witness for C3 at the exactly-60 boundary of the claim: the request's
artist is a partial substring of the candidate's (30), the candidate's title
a partial substring of the request's (30), no duration bonus; the candidate
scores exactly 60 and is selected. -/
theorem matcher_selects_first_max_witness :
    jamendoFindBestMatch ⟨"abba", "song one", "x", none⟩
        [⟨some "1", "abba band", "song", 0⟩] =
      some ⟨some "1", "abba band", "song", 0⟩ :=
  ((matcher_selects_first_max
      (jamendoScore ⟨"abba", "song one", "x", none⟩)
      [⟨some "1", "abba band", "song", 0⟩] (by decide)).1 (by decide)).trans
    (by decide)

/-- C8: with the artist and title signals fixed, the candidate's score with
a duration 5 seconds from the request's never lies below its score with a
duration 15 seconds away, and the duration bonus is a flat 20 awarded
exactly when the absolute difference is within 10 seconds. -/
theorem duration_bonus_flat_monotone (sp : SpotifyTrack) (dms : ℚ)
    (r : JamendoTrack) (d15 d5 : ℚ) (hsp : sp.duration_ms = some dms)
    (h15 : |dms / 1000 - d15| = 15) (h5 : |dms / 1000 - d5| = 5) :
    jamendoScore sp { r with duration := d15 } ≤
      jamendoScore sp { r with duration := d5 } ∧
    ∃ base : ℕ, ∀ d : ℚ,
      jamendoScore sp { r with duration := d } =
        base + (if |dms / 1000 - d| ≤ 10 then 20 else 0) := by
  have hb15 : ¬ (|dms / 1000 - d15| ≤ 10) := by rw [h15]; norm_num
  have hb5 : |dms / 1000 - d5| ≤ 10 := by rw [h5]; norm_num
  constructor
  · simp only [jamendoScore, hsp, hb15, hb5, if_true, if_false, if_neg, if_pos]
    omega
  · refine ⟨(if pyLower sp.artist = pyLower r.artist_name then 50
      else if strIn (pyLower sp.artist) (pyLower r.artist_name) ||
        strIn (pyLower r.artist_name) (pyLower sp.artist) then 30 else 0) +
      (if pyLower sp.name = pyLower r.name then 50
      else if strIn (pyLower sp.name) (pyLower r.name) ||
        strIn (pyLower r.name) (pyLower sp.name) then 30 else 0), ?_⟩
    intro d
    simp only [jamendoScore, hsp]

/-- Witness for C8: request duration 200000 ms (200 s); a candidate 215 s
long (difference 15) scores no more than one 205 s long (difference 5), and
the bonus decomposition holds. -/
theorem duration_bonus_flat_monotone_witness :
    jamendoScore ⟨"a", "b", "c", some 200000⟩
        { (⟨none, "x", "y", 0⟩ : JamendoTrack) with duration := 215 } ≤
      jamendoScore ⟨"a", "b", "c", some 200000⟩
        { (⟨none, "x", "y", 0⟩ : JamendoTrack) with duration := 205 } ∧
    ∃ base : ℕ, ∀ d : ℚ,
      jamendoScore ⟨"a", "b", "c", some 200000⟩
          { (⟨none, "x", "y", 0⟩ : JamendoTrack) with duration := d } =
        base + (if |(200000 : ℚ) / 1000 - d| ≤ 10 then 20 else 0) :=
  duration_bonus_flat_monotone ⟨"a", "b", "c", some 200000⟩ 200000
    ⟨none, "x", "y", 0⟩ 215 205 rfl (by norm_num [abs_sub_comm])
    (by norm_num [abs_sub_comm])

/-- C4: for a file whose embedded duration is readable and positive, the
completeness check validates exactly when the ratio of the actual duration
to the expected duration (`duration_ms / 1000`) lies in the inclusive
interval from 0.85 to 1.15. -/
theorem validator_ratio_iff (l fileSize durationMs : ℚ) (hl : 0 < l) :
    is_file_complete (.opened (some l)) fileSize durationMs = true ↔
      0.85 ≤ l / (durationMs / 1000) ∧ l / (durationMs / 1000) ≤ 1.15 := by
  simp [is_file_complete, hl]

/-- Witness for C4 at the lower boundary of the claim: a 170 s file against
an expected 200000 ms is at ratio exactly 0.85 and is accepted. -/
theorem validator_ratio_iff_witness :
    is_file_complete (.opened (some 170)) 0 200000 = true :=
  (validator_ratio_iff 170 0 200000 (by norm_num)).mpr (by norm_num)

/-! ### Lemmas on the filename sanitizer -/

theorem mem_replaceChar {x c : Char} {s : List Char}
    (h : x ∈ replaceChar s c) : x = '_' ∨ (x ∈ s ∧ x ≠ c) := by
  simp only [replaceChar, List.mem_map] at h
  obtain ⟨a, ha, hax⟩ := h
  by_cases hac : a = c
  · left; rw [if_pos hac] at hax; exact hax.symm
  · right; rw [if_neg hac] at hax; subst hax; exact ⟨ha, hac⟩

theorem mem_foldl_replace {x : Char} :
    ∀ (chars s : List Char), x ∈ chars.foldl replaceChar s →
      x = '_' ∨ (x ∈ s ∧ x ∉ chars) := by
  intro chars
  induction chars with
  | nil =>
    intro s h
    right
    exact ⟨by simpa using h, List.not_mem_nil x⟩
  | cons c cs ih =>
    intro s h
    rw [List.foldl_cons] at h
    rcases ih (replaceChar s c) h with h1 | ⟨h2, h3⟩
    · left; exact h1
    · rcases mem_replaceChar h2 with h4 | ⟨h5, h6⟩
      · left; exact h4
      · right
        refine ⟨h5, ?_⟩
        intro hmem
        rcases List.mem_cons.mp hmem with h7 | h7
        · exact h6 h7
        · exact h3 h7

theorem mem_of_mem_dropWhile {x : Char} {p : Char → Bool} :
    ∀ {s : List Char}, x ∈ s.dropWhile p → x ∈ s := by
  intro s
  induction s with
  | nil => intro h; simp [List.dropWhile] at h
  | cons a l ih =>
    intro h
    by_cases ha : p a
    · rw [List.dropWhile_cons_of_pos ha] at h
      exact List.mem_cons_of_mem a (ih h)
    · rwa [List.dropWhile_cons_of_neg (by simpa using ha)] at h

theorem mem_of_mem_pyStrip {x : Char} {s : List Char} (h : x ∈ pyStrip s) :
    x ∈ s := by
  unfold pyStrip at h
  rw [List.mem_reverse] at h
  have h2 := mem_of_mem_dropWhile h
  rw [List.mem_reverse] at h2
  exact mem_of_mem_dropWhile h2

theorem sanitize_filename_not_mem {c : Char} (hc : c ∈ invalidChars)
    (s : String) : c ∉ (sanitize_filename s).data := by
  intro hmem
  have h1 : c ∈ invalidChars.foldl replaceChar s.data := mem_of_mem_pyStrip hmem
  rcases mem_foldl_replace invalidChars s.data h1 with h2 | ⟨_, h3⟩
  · subst h2; revert hc; decide
  · exact h3 hc

/-- C2 (amended): of the providers, only the YouTube downloader substitutes
filesystem-unsafe characters: every metadata-derived segment of
`Downloader._get_output_path` is passed through `_sanitize_filename`, after
which it contains none of the nine unsafe characters; the Jamendo and
Internet Archive download paths are built from the raw metadata with no
substitution (see the counterexample). -/
theorem downloader_segments_sanitized (tr : SpotifyTrack) (c : Char)
    (hc : c ∈ invalidChars) : ∀ seg ∈ downloaderSegments tr, c ∉ seg.data := by
  intro seg hseg
  simp only [downloaderSegments, List.mem_cons, List.not_mem_nil, or_false] at hseg
  rcases hseg with h | h | h <;> subst h <;> exact sanitize_filename_not_mem hc _

/-- Witness for C2 (amended): sanitizing the artist `A/B:C` leaves no
unsafe slash in the artist segment. -/
theorem downloader_segments_sanitized_witness :
    '/' ∉ (sanitize_filename "A/B:C").data :=
  downloader_segments_sanitized ⟨"A/B:C", "n", "a", none⟩ '/' (by decide)
    (sanitize_filename "A/B:C")
    (by simp [downloaderSegments])

/-- Counterexample for C2 as stated: the Jamendo download path for artist
`AC/DC` uses the raw artist string as a path segment, and that segment still
contains the unsafe character `/` — no placeholder substitution happened
before path construction. -/
theorem provider_segment_unsanitized_cex :
    '/' ∈ invalidChars ∧
      "AC/DC" ∈ jamendoSegments ⟨"AC/DC", "T.N.T.", "Album", none⟩ ∧
      "AC/DC" ∈ iaSegments ⟨"AC/DC", "T.N.T.", "Album", none⟩ ∧
      '/' ∈ ("AC/DC" : String).data := by
  decide

/-- C7: marking a track as downloaded and then checking the ledger with the
same on-disk size always reports the track as current (the recorded size
equals the observed size), for every prior ledger state. -/
theorem mark_then_is_downloaded (m : TrackerMap) (tr : SpotifyTrack)
    (filePath : String) (sz : ℕ) (fmt : String) :
    is_downloaded (mark_downloaded m tr filePath sz fmt) tr (some sz) = true := by
  simp [is_downloaded, mark_downloaded]

/-- C9: removing a track whose identity is absent leaves the ledger mapping
unchanged and performs no persistence write; removing a present identity
persists, deletes exactly that entry and leaves every other key unchanged. -/
theorem remove_track_frame (m : TrackerMap) (tr : SpotifyTrack) :
    (m (trackId tr) = none → remove_track m tr = (m, false)) ∧
    (∀ e, m (trackId tr) = some e →
      (remove_track m tr).2 = true ∧
      (remove_track m tr).1 (trackId tr) = none ∧
      ∀ k, k ≠ trackId tr → (remove_track m tr).1 k = m k) := by
  constructor
  · intro h
    simp [remove_track, h]
  · intro e he
    refine ⟨by simp [remove_track, he], by simp [remove_track, he], ?_⟩
    intro k hk
    simp [remove_track, he, hk]

/-- Witness for C9 on a concrete one-entry ledger: the present identity is
deleted and persisted, a distinct key is untouched, and removal of an
absent identity is a no-op without a write. -/
theorem remove_track_frame_witness :
    (remove_track
        (fun k => if k = "ar|ti|al"
          then some ⟨"ar", "ti", "al", "f.mp3", 7, "mp3"⟩ else none)
        ⟨"ar", "ti", "al", none⟩).2 = true ∧
    (remove_track
        (fun k => if k = "ar|ti|al"
          then some ⟨"ar", "ti", "al", "f.mp3", 7, "mp3"⟩ else none)
        ⟨"ar", "ti", "al", none⟩).1 "ar|ti|al" = none ∧
    (remove_track
        (fun k => if k = "ar|ti|al"
          then some ⟨"ar", "ti", "al", "f.mp3", 7, "mp3"⟩ else none)
        ⟨"ar", "ti", "al", none⟩).1 "other" =
      (fun k => if k = "ar|ti|al"
          then some ⟨"ar", "ti", "al", "f.mp3", 7, "mp3"⟩ else none) "other" := by
  have h := (remove_track_frame
      (fun k => if k = "ar|ti|al"
        then some ⟨"ar", "ti", "al", "f.mp3", 7, "mp3"⟩ else none)
      ⟨"ar", "ti", "al", none⟩).2
      ⟨"ar", "ti", "al", "f.mp3", 7, "mp3"⟩ (by decide)
  exact ⟨h.1, h.2.1, h.2.2 "other" (by decide)⟩

/-- C6: the orchestrator attempts providers strictly in the configured
order, skipping identifiers absent from the active source set: the attempt
trace is the active-filtered prefix of the priority list up to some cut
`k`; on total failure the cut is the whole list, and on success the last
attempted provider is the one whose attempt returned the path — so once a
provider succeeds, no later provider in the list is ever invoked. The
hypothesis reflects that `self.sources` only ever holds the four dispatch
names. -/
theorem download_fallback_order (priority : List String)
    (avail : String → Bool) (attempt : String → AttemptOutcome)
    (hsub : ∀ p, avail p = true → p ∈ knownSourceNames) :
    ∃ k ≤ priority.length,
      (download_loop priority avail attempt).2 =
        (priority.take k).filter (fun p => avail p) ∧
      ((download_loop priority avail attempt).1 = none →
        k = priority.length) ∧
      (∀ path, (download_loop priority avail attempt).1 = some path →
        ∃ p, (download_loop priority avail attempt).2.getLast? = some p ∧
          attempt p = .finished (some path)) := by
  induction priority with
  | nil =>
    refine ⟨0, Nat.le_refl 0, rfl, fun _ => rfl, ?_⟩
    intro path h
    simp [download_loop] at h
  | cons p rest ih =>
    obtain ⟨k, hk, htrace, hnone, hsome⟩ := ih
    by_cases hav : avail p = true
    · have hknown : p ∈ knownSourceNames := hsub p hav
      cases hatt : attempt p with
      | raised =>
        have hstep : download_loop (p :: rest) avail attempt =
            ((download_loop rest avail attempt).1,
              p :: (download_loop rest avail attempt).2) := by
          simp [download_loop, hav, hknown, hatt]
        refine ⟨k + 1, by simpa using Nat.succ_le_succ hk, ?_, ?_, ?_⟩
        · rw [hstep]
          simp [htrace, hav]
        · intro h
          rw [hstep] at h
          rw [List.length_cons, hnone h]
        · intro path h
          rw [hstep] at h ⊢
          obtain ⟨q, hql, hqa⟩ := hsome path h
          refine ⟨q, ?_, hqa⟩
          show (p :: (download_loop rest avail attempt).2).getLast? = some q
          cases htr : (download_loop rest avail attempt).2 with
          | nil => rw [htr] at hql; simp at hql
          | cons b l =>
            rw [htr] at hql
            rw [List.getLast?_cons_cons, hql]
      | finished res =>
        cases res with
        | none =>
          have hstep : download_loop (p :: rest) avail attempt =
              ((download_loop rest avail attempt).1,
                p :: (download_loop rest avail attempt).2) := by
            simp [download_loop, hav, hknown, hatt]
          refine ⟨k + 1, by simpa using Nat.succ_le_succ hk, ?_, ?_, ?_⟩
          · rw [hstep]
            simp [htrace, hav]
          · intro h
            rw [hstep] at h
            rw [List.length_cons, hnone h]
          · intro path h
            rw [hstep] at h ⊢
            obtain ⟨q, hql, hqa⟩ := hsome path h
            refine ⟨q, ?_, hqa⟩
            show (p :: (download_loop rest avail attempt).2).getLast? = some q
            cases htr : (download_loop rest avail attempt).2 with
            | nil => rw [htr] at hql; simp at hql
            | cons b l =>
              rw [htr] at hql
              rw [List.getLast?_cons_cons, hql]
        | some path =>
          have hstep : download_loop (p :: rest) avail attempt =
              (some path, [p]) := by
            simp [download_loop, hav, hknown, hatt]
          refine ⟨1, by simp, ?_, ?_, ?_⟩
          · rw [hstep]
            simp [hav]
          · intro h
            rw [hstep] at h
            simp at h
          · intro path' h
            rw [hstep] at h ⊢
            have hpp : path = path' := by simpa using h
            refine ⟨p, by simp, ?_⟩
            rw [hatt, hpp]
    · have hstep : download_loop (p :: rest) avail attempt =
          download_loop rest avail attempt := by
        simp [download_loop, hav]
      refine ⟨k + 1, by simpa using Nat.succ_le_succ hk, ?_, ?_, ?_⟩
      · rw [hstep]
        simp [htrace, hav]
      · intro h
        rw [hstep] at h
        rw [List.length_cons, hnone h]
      · intro path h
        rw [hstep] at h ⊢
        exact hsome path h

/-- Witness for C6: with `youtube` succeeding first in the priority list
`[youtube, bogus, jamendo]`, the characterization holds at the concrete
input; its trace clause forces the attempts to stop at `youtube`. -/
theorem download_fallback_order_witness :
    ∃ k ≤ (["youtube", "bogus", "jamendo"] : List String).length,
      (download_loop ["youtube", "bogus", "jamendo"]
          (fun p => knownSourceNames.contains p)
          (fun p => if p = "youtube" then .finished (some "f.mp3")
            else .raised)).2 =
        ((["youtube", "bogus", "jamendo"] : List String).take k).filter
          (fun p => knownSourceNames.contains p) ∧
      ((download_loop ["youtube", "bogus", "jamendo"]
          (fun p => knownSourceNames.contains p)
          (fun p => if p = "youtube" then .finished (some "f.mp3")
            else .raised)).1 = none →
        k = (["youtube", "bogus", "jamendo"] : List String).length) ∧
      (∀ path, (download_loop ["youtube", "bogus", "jamendo"]
          (fun p => knownSourceNames.contains p)
          (fun p => if p = "youtube" then .finished (some "f.mp3")
            else .raised)).1 = some path →
        ∃ p, (download_loop ["youtube", "bogus", "jamendo"]
            (fun p => knownSourceNames.contains p)
            (fun p => if p = "youtube" then .finished (some "f.mp3")
              else .raised)).2.getLast? = some p ∧
          (fun p => if p = "youtube" then .finished (some "f.mp3")
            else .raised : String → AttemptOutcome) p =
            .finished (some path)) :=
  download_fallback_order ["youtube", "bogus", "jamendo"]
    (fun p => knownSourceNames.contains p)
    (fun p => if p = "youtube" then .finished (some "f.mp3") else .raised)
    (fun p hp => by simpa [knownSourceNames] using hp)

/-- C5: when every available provider's attempt either raises or returns
`None`, the orchestrator's download returns `None` as a normal value; a
raised attempt is absorbed and is equivalent to advancing past that
provider (the embedding is a total function, so no exception escapes). -/
theorem download_exhaustion (priority : List String) (avail : String → Bool)
    (attempt : String → AttemptOutcome)
    (hall : ∀ p ∈ priority, avail p = true →
      attempt p = .raised ∨ attempt p = .finished none) :
    (download_loop priority avail attempt).1 = none ∧
    (∀ p rest, attempt p = .raised →
      (download_loop (p :: rest) avail attempt).1 =
        (download_loop rest avail attempt).1) := by
  constructor
  · induction priority with
    | nil => rfl
    | cons p rest ih =>
      have ihr := ih fun q hq hqa =>
        hall q (List.mem_cons_of_mem p hq) hqa
      by_cases hav : avail p = true
      · rcases hall p (List.mem_cons_self p rest) hav with h | h
        · by_cases hk : p ∈ knownSourceNames
          · simpa [download_loop, hav, hk, h] using ihr
          · simpa [download_loop, hav, hk] using ihr
        · by_cases hk : p ∈ knownSourceNames
          · simpa [download_loop, hav, hk, h] using ihr
          · simpa [download_loop, hav, hk] using ihr
      · simpa [download_loop, Bool.of_not_eq_true hav] using ihr
  · intro p rest hp
    by_cases hav : avail p = true
    · by_cases hk : p ∈ knownSourceNames
      · simp [download_loop, hav, hk, hp]
      · simp [download_loop, hav, hk]
    · simp [download_loop, Bool.of_not_eq_true hav]

/-- Witness for C5: both available providers raise, and the download
returns `None` without propagating anything. -/
theorem download_exhaustion_witness :
    (download_loop ["jamendo", "youtube"]
        (fun p => knownSourceNames.contains p)
        (fun _ => AttemptOutcome.raised)).1 = none ∧
    (∀ p rest, (fun _ => AttemptOutcome.raised : String → AttemptOutcome) p =
        .raised →
      (download_loop (p :: rest) (fun p => knownSourceNames.contains p)
          (fun _ => AttemptOutcome.raised)).1 =
        (download_loop rest (fun p => knownSourceNames.contains p)
          (fun _ => AttemptOutcome.raised)).1) :=
  download_exhaustion ["jamendo", "youtube"]
    (fun p => knownSourceNames.contains p) (fun _ => AttemptOutcome.raised)
    (by intro p _ _; left; rfl)

/-- C1: when the ledger holds an entry for the request's identity and the
entry's recorded size equals the observed on-disk size, `acquire` returns
the recorded file path immediately and the provider loop is never entered
(the attempt trace is empty), for any configured providers. -/
theorem acquire_cache_hit (m : TrackerMap) (tr : SpotifyTrack) (sz : ℕ)
    (e : TrackEntry) (priority : List String) (avail : String → Bool)
    (attempt : String → AttemptOutcome)
    (he : m (trackId tr) = some e) (hs : e.size = sz) :
    acquire m tr (some sz) priority avail attempt = (some e.file, []) := by
  simp [acquire, is_downloaded, he, hs]

/-- Witness for C1 (Scenario 4 of the spec): a ledger entry of size 5000000
with a matching 5000000-byte file on disk short-circuits `acquire` to the
recorded path even though a succeeding provider is configured. -/
theorem acquire_cache_hit_witness :
    acquire
      (fun k => if k = "a|n|b"
        then some ⟨"a", "n", "b", "p.flac", 5000000, "flac"⟩ else none)
      ⟨"a", "n", "b", none⟩ (some 5000000) ["jamendo"] (fun _ => true)
      (fun _ => .finished (some "other")) = (some "p.flac", []) :=
  acquire_cache_hit
    (fun k => if k = "a|n|b"
      then some ⟨"a", "n", "b", "p.flac", 5000000, "flac"⟩ else none)
    ⟨"a", "n", "b", none⟩ 5000000 ⟨"a", "n", "b", "p.flac", 5000000, "flac"⟩
    ["jamendo"] (fun _ => true) (fun _ => .finished (some "other"))
    (by decide) rfl

/-- C10: once the Jamendo fetch has written the output file, a written size
below 100000 bytes makes `download_track` delete the file and return
`None`; consequently any non-`None` return implies the written file is at
least 100000 bytes. -/
theorem jamendo_small_file_guard :
    (∀ i out sz, sz < 100000 →
      jamendo_download_track (some i) true sz out = (none, true)) ∧
    (∀ idOpt ct sz out p,
      (jamendo_download_track idOpt ct sz out).1 = some p → 100000 ≤ sz) := by
  constructor
  · intro i out sz h
    simp [jamendo_download_track, h]
  · intro idOpt ct sz out p h
    cases idOpt with
    | none => simp [jamendo_download_track] at h
    | some i =>
      by_cases hct : ct
      · by_cases hsz : sz < 100000
        · simp [jamendo_download_track, hct, hsz] at h
        · omega
      · simp [jamendo_download_track, hct] at h

/-- Witness for C10: a 99999-byte Jamendo download is deleted and reported
as a failure. -/
theorem jamendo_small_file_guard_witness :
    jamendo_download_track (some "9") true 99999 "f.flac" = (none, true) :=
  jamendo_small_file_guard.1 "9" "f.flac" 99999 (by decide)

end SpotifyDL
